import Mathlib

/-!
Shallow embedding of the keyword-analysis core of
`src/components/WatsonAnalyzer/hooks/optimization/useKeywordAnalysis.ts`
(the hook `useKeywordAnalysis`, with its two functions `checkKeywordStatus`
and `mockAnalysisForKeywords`).

Strings are modelled as `List Char` restricted to ASCII text: JavaScript
`toLowerCase`, `trim`, `includes`, `split(/\s+/)` and the two literal-pattern
regex tests used by the source are given explicit executable models below.
JavaScript numbers carrying the relevance/confidence scores are modelled as
rationals; every numeric comparison the source performs on them (the sort
comparator) is exact at the values occurring in the program, so no
floating-point rounding is observable.
-/

namespace WatsonNLU

/-- ASCII whitespace, the model of the JavaScript `\s` class and of the
characters removed by `String.prototype.trim` (restricted to ASCII input). -/
def isWsChar (c : Char) : Bool :=
  c = ' ' || c = '\t' || c = '\n' || c = '\r'

/-- Model of `String.prototype.toLowerCase` on ASCII text. -/
def jsLower (s : List Char) : List Char :=
  s.map Char.toLower

/-- Model of `String.prototype.trim`: drop leading and trailing whitespace. -/
def jsTrim (s : List Char) : List Char :=
  ((s.dropWhile isWsChar).reverse.dropWhile isWsChar).reverse

/-- Model of `s.includes(p)`: `p` occurs contiguously inside `s`. -/
def jsIncludes (s p : List Char) : Bool :=
  decide (p <:+: s)

/-- A JavaScript word character, the `\w` class relevant to the `\b`
assertion: ASCII letters, digits, and underscore. -/
def isWordChar (c : Char) : Bool :=
  c.isAlphanum || c = '_'

/-- Whether position `j` of `t` holds a word character (positions past the
end count as non-word, as the regex engine treats the edges of the input). -/
def wordAt (t : List Char) (j : Nat) : Bool :=
  match t.get? j with
  | some c => isWordChar c
  | none => false

/-- The `\b` zero-width assertion at position `j` of `t`: exactly one of the
two adjacent positions holds a word character (the position before the start
of the string counts as non-word). -/
def boundaryAt (t : List Char) (j : Nat) : Bool :=
  ((decide (j ≠ 0)) && wordAt t (j - 1)) != wordAt t j

/-- Model of `new RegExp("\\b" + escaped(p) + "\\b", "i").test(t)` where the
metacharacters of `p` have been escaped (so `p` is a literal): some
occurrence of `p` in `t` has a word boundary at both ends.  Caller passes
both sides already lower-cased, which subsumes the `i` flag on ASCII text. -/
def wordBoundaryTest (t p : List Char) : Bool :=
  (List.range (t.length + 1)).any fun i =>
    decide ((t.drop i).take p.length = p) &&
    boundaryAt t i && boundaryAt t (i + p.length)

/-- The delimiter class `[,.;!?]` or `\s` of the generator's regex. -/
def isDelimChar (c : Char) : Bool :=
  isWsChar c || c = ',' || c = '.' || c = ';' || c = '!' || c = '?'

/-- Whether position `j` of `t` holds a delimiter character. -/
def delimAt (t : List Char) (j : Nat) : Bool :=
  match t.get? j with
  | some c => isDelimChar c
  | none => false

/-- Model of testing `(^|\s|[,.;!?])` + escaped(p) + `($|\s|[,.;!?])` against
`t`: some occurrence of `p` in `t` is preceded by the start of the string or
a delimiter character and followed by the end of the string or a delimiter
character. -/
def delimBoundedTest (t p : List Char) : Bool :=
  (List.range (t.length + 1)).any fun i =>
    (decide (i = 0) || delimAt t (i - 1)) &&
    decide ((t.drop i).take p.length = p) &&
    (decide (i + p.length = t.length) || delimAt t (i + p.length))

/-- Worker for `jsSplitWs`, consumed right to left by `foldr`: the state is
the pieces built so far (at least one) plus whether the character just to
the right was whitespace.  A whitespace character opens a new piece unless
the previous character already did (so a maximal whitespace run is one
separator); a non-whitespace character extends the current piece. -/
def splitWsStep (c : Char) (st : List (List Char) × Bool) :
    List (List Char) × Bool :=
  if isWsChar c then
    (if st.2 then st.1 else [] :: st.1, true)
  else
    match st.1 with
    | [] => ([[c]], false)
    | g :: gs => ((c :: g) :: gs, false)

/-- Model of `s.split(/\s+/)`: pieces between maximal whitespace runs, with
an empty piece at an end of the string that touches whitespace, and `[""]`
for the empty string. -/
def jsSplitWs (s : List Char) : List (List Char) :=
  (s.foldr splitWsStep ([[]], false)).1

/-- A `{text, relevance, count}` record of the `keywords` list. -/
structure KeywordEntry where
  text : List Char
  relevance : ℚ
  count : Nat
deriving DecidableEq, Repr

/-- A `{type, text, relevance, confidence, count}` record of the `entities`
list (the fields the reviewed core reads or writes). -/
structure Entity where
  type : List Char
  text : List Char
  relevance : ℚ
  confidence : ℚ
  count : Nat
deriving DecidableEq, Repr

/-- The fields of an analysis-result object that `checkKeywordStatus` and
`mockAnalysisForKeywords` read or write.  A field an object may lack is an
`Option` (`none` = the field is absent or `undefined`/`null`); an empty
string or empty array is `some` of the empty value, which JavaScript
truthiness distinguishes from absence where the source tests it. -/
structure AnalysisResult where
  optimizedText : Option (List Char)
  keywords : Option (List KeywordEntry)
  entities : Option (List Entity)
deriving DecidableEq, Repr

/-- The four values of the `KeywordStatus` union type
(`"exact" | "partial" | "relevant" | "missing"`). -/
inductive KeywordStatus where
  | exact
  | partialMatch
  | relevant
  | missing
deriving DecidableEq, Repr

/-- The three utilities `checkKeywordStatus` imports from
`../../utils/keywordUtils` (a module that is not among the repository's
files); the embedding is parametric in them. -/
structure ExternalMatchers where
  isExactKeywordMatch : List Char → List Char → Bool
  isPartialKeywordMatch : List Char → List Char → Bool
  isKeywordInTopPositions : List Char → List KeywordEntry → Nat → Bool

/-- The fixed domain substring `'bras'` the source special-cases. -/
def domainToken : List Char := "bras".toList

/-- Embedding of `checkKeywordStatus` (useKeywordAnalysis.ts lines 10-71):
the ordered decision chain over the keyword and the result in use.  The
guard mirrors `!resultsToUse || !resultsToUse.keywords || !keyword` (an
empty keyword string is falsy; an empty keywords array is truthy), and
rule 1 mirrors `optimizedText && lowerKeyword.includes('bras') && regex`
(an absent `optimizedText` defaults to the falsy empty string). -/
def checkKeywordStatus (ext : ExternalMatchers) (keyword : List Char)
    (resultsToUse : Option AnalysisResult) : KeywordStatus :=
  match resultsToUse with
  | none => .missing
  | some r =>
    match r.keywords with
    | none => .missing
    | some kws =>
      if keyword.isEmpty then .missing
      else
        let lowerKeyword := jsTrim (jsLower keyword)
        let optimizedText := r.optimizedText.getD []
        if !optimizedText.isEmpty && jsIncludes lowerKeyword domainToken &&
            wordBoundaryTest (jsLower optimizedText) lowerKeyword then
          .exact
        else if kws.any fun k => ext.isExactKeywordMatch k.text keyword then
          .exact
        else if kws.any fun k => ext.isPartialKeywordMatch k.text keyword then
          .partialMatch
        else if kws.any fun k =>
            jsIncludes (jsTrim (jsLower k.text)) lowerKeyword ||
            jsIncludes lowerKeyword (jsTrim (jsLower k.text)) then
          .partialMatch
        else if ext.isKeywordInTopPositions keyword kws 10 then
          .relevant
        else if (match r.entities with
            | some es => decide (0 < es.length) && es.any fun e =>
                jsIncludes (jsLower e.text) lowerKeyword ||
                jsIncludes lowerKeyword (jsLower e.text)
            | none => false) then
          .exact
        else
          .missing

/-- The order the generator sorts keyword entries by: the ES2019 stable sort
with comparator `(a, b) => b.relevance - a.relevance`, i.e. non-increasing
relevance. -/
def relDesc (a b : KeywordEntry) : Prop :=
  b.relevance ≤ a.relevance

instance : DecidableRel relDesc :=
  fun a b => inferInstanceAs (Decidable (b.relevance ≤ a.relevance))

instance : IsTotal KeywordEntry relDesc :=
  ⟨fun a b => le_total b.relevance a.relevance⟩

instance : IsTrans KeywordEntry relDesc :=
  ⟨fun _ _ _ h1 h2 => le_trans h2 h1⟩

/-- Model of `mockKeywords.sort((a, b) => b.relevance - a.relevance)`:
`Array.prototype.sort` with this comparator is the stable sort by
non-increasing relevance (ES2019 requires sort stability), and insertion
sort inserting each earlier element in front of the later ties is stable, so
it computes the same list. -/
def sortByRelevanceDesc (l : List KeywordEntry) : List KeywordEntry :=
  List.insertionSort relDesc l

/-- Modelled from the spec: `isExactKeywordMatch` lives in
`utils/keywordUtils`, a module that is not among the repository's files; §4.1
rule 2 describes it as "an exact (case/whitespace-insensitive) match". -/
def isExactKeywordMatchSpec (ktext keyword : List Char) : Bool :=
  decide (jsTrim (jsLower ktext) = jsTrim (jsLower keyword))

/-- Modelled from the spec: `isPartialKeywordMatch` lives in
`utils/keywordUtils`, a module that is not among the repository's files; §4.1
rule 3 describes it as "a partial match (token overlap or stem-level
similarity)"; the model takes the token-overlap reading: the two sides,
lower-cased and split on whitespace, share a nonempty token. -/
def isPartialKeywordMatchSpec (ktext keyword : List Char) : Bool :=
  (jsSplitWs (jsLower ktext)).any fun t =>
    !t.isEmpty && (jsSplitWs (jsLower keyword)).contains t

/-- Modelled from the spec: `isKeywordInTopPositions` lives in
`utils/keywordUtils`, a module that is not among the repository's files; §4.1
rule 5 describes it as judging the keyword relevant "when restricted to the
top 10 entries of `keywords` (ranked by relevance)"; the model asks whether
one of the first `n` entries in relevance order matches the keyword exactly
or partially in the sense of the two utilities above. -/
def isKeywordInTopPositionsSpec (keyword : List Char)
    (kws : List KeywordEntry) (n : Nat) : Bool :=
  ((sortByRelevanceDesc kws).take n).any
    fun k => isExactKeywordMatchSpec k.text keyword ||
      isPartialKeywordMatchSpec k.text keyword

/-- The spec-modelled instantiation of the three external utilities. -/
def specMatchers : ExternalMatchers :=
  { isExactKeywordMatch := isExactKeywordMatchSpec
    isPartialKeywordMatch := isPartialKeywordMatchSpec
    isKeywordInTopPositions := isKeywordInTopPositionsSpec }

/-- One iteration of the target-keyword loop of `mockAnalysisForKeywords`
(lines 85-126): on a whole-word match push `{text: keyword, relevance: 0.95,
count: 1}` (and, when the lower-cased keyword contains `'bras'`, the
`ProductType` entity); otherwise, on a plain substring match, push
`{text: keyword + " (partial)", relevance: 0.8, count: 1}`; otherwise push
nothing. -/
def targetEntryStep (optimizedContent : List Char)
    (acc : List KeywordEntry × List Entity) (keyword : List Char) :
    List KeywordEntry × List Entity :=
  let lowerKeyword := jsTrim (jsLower keyword)
  let lowerContent := jsLower optimizedContent
  if delimBoundedTest lowerContent lowerKeyword then
    (acc.1 ++ [{ text := keyword, relevance := mkRat 95 100, count := 1 }],
     if jsIncludes (jsLower keyword) domainToken then
       acc.2 ++ [{ type := "ProductType".toList, text := keyword,
                   relevance := mkRat 95 100, confidence := mkRat 9 10, count := 1 }]
     else acc.2)
  else if jsIncludes lowerContent lowerKeyword then
    (acc.1 ++ [{ text := keyword ++ " (partial)".toList,
                 relevance := mkRat 8 10, count := 1 }],
     acc.2)
  else acc

/-- The accumulator after the whole target-keyword loop. -/
def targetPass (optimizedContent : List Char)
    (targetKeywords : List (List Char)) : List KeywordEntry × List Entity :=
  targetKeywords.foldl (targetEntryStep optimizedContent) ([], [])

/-- The `(i, j)` index pairs of the nested phrase loops (lines 129-160), in
iteration order: `i` over the word indices, `j` over window sizes `1..3`,
kept when `i + j <= words.length`. -/
def phrasePairs (n : Nat) : List (Nat × Nat) :=
  (List.range n).flatMap fun i =>
    ([1, 2, 3] : List Nat).filterMap fun j =>
      if i + j ≤ n then some (i, j) else none

/-- `words.slice(i, i + j).join(" ")`. -/
def phraseAt (words : List (List Char)) (i j : Nat) : List Char :=
  List.intercalate [' '] ((words.drop i).take j)

/-- The `continue` guard of the phrase loops: the phrase is shorter than 3
characters, or a lower-cased duplicate of a keyword entry pushed so far. -/
def phraseSkip (words : List (List Char)) (kws : List KeywordEntry)
    (ij : Nat × Nat) : Bool :=
  (phraseAt words ij.1 ij.2).length < 3 ||
    kws.any (fun k => jsLower k.text = jsLower (phraseAt words ij.1 ij.2))

/-- One iteration of the phrase loops: skip the phrase when the `continue`
guard fires; otherwise push it with relevance `0.7 - 0.1 * j` (written over
the common denominator 10: the values are exact tenths), and push the
`ProductType` entity when the lower-cased phrase contains `'bras'` and no
entity with the same lower-cased text was pushed so far. -/
def phraseStep (words : List (List Char))
    (acc : List KeywordEntry × List Entity) (ij : Nat × Nat) :
    List KeywordEntry × List Entity :=
  let phrase := phraseAt words ij.1 ij.2
  if phraseSkip words acc.1 ij then
    acc
  else
    (acc.1 ++ [{ text := phrase,
                 relevance := mkRat (7 - (ij.2 : Int)) 10, count := 1 }],
     if jsIncludes (jsLower phrase) domainToken &&
         !acc.2.any (fun e => jsLower e.text = jsLower phrase) then
       acc.2 ++ [{ type := "ProductType".toList, text := phrase,
                   relevance := mkRat 7 10, confidence := mkRat 8 10, count := 1 }]
     else acc.2)

/-- The candidate keyword entries and discovered entities accumulated by the
two loops of `mockAnalysisForKeywords`, before sorting and truncation. -/
def mockCandidates (optimizedContent : List Char)
    (targetKeywords : List (List Char)) : List KeywordEntry × List Entity :=
  let words := jsSplitWs optimizedContent
  (phrasePairs words.length).foldl (phraseStep words)
    (targetPass optimizedContent targetKeywords)

/-- Embedding of `mockAnalysisForKeywords` (lines 74-175): shallow-copy the
hook's `results` with `optimizedText` replaced, set `keywords` to the
candidates sorted by descending relevance and truncated to 15, and set
`entities` to the discovered entities followed by the source entities when
the source has a nonempty entity list, and to the discovered list alone
otherwise. -/
def mockAnalysisForKeywords (results : AnalysisResult)
    (optimizedContent : List Char) (targetKeywords : List (List Char)) :
    AnalysisResult :=
  let cands := mockCandidates optimizedContent targetKeywords
  { optimizedText := some optimizedContent
    keywords := some ((sortByRelevanceDesc cands.1).take 15)
    entities := some (match results.entities with
      | some es => if 0 < es.length then cands.2 ++ es else cands.2
      | none => cands.2) }

/-! ## Helper lemmas: the two accumulation loops only append -/

theorem targetEntryStep_fst_append (c : List Char)
    (acc : List KeywordEntry × List Entity) (kw : List Char) :
    ∃ l, (targetEntryStep c acc kw).1 = acc.1 ++ l := by
  unfold targetEntryStep
  dsimp only
  split
  · exact ⟨_, rfl⟩
  · split
    · exact ⟨_, rfl⟩
    · exact ⟨[], (List.append_nil _).symm⟩

theorem targetEntryStep_snd_append (c : List Char)
    (acc : List KeywordEntry × List Entity) (kw : List Char) :
    ∃ l, (targetEntryStep c acc kw).2 = acc.2 ++ l := by
  unfold targetEntryStep
  dsimp only
  split
  · split
    · exact ⟨_, rfl⟩
    · exact ⟨[], (List.append_nil _).symm⟩
  · split
    · exact ⟨[], (List.append_nil _).symm⟩
    · exact ⟨[], (List.append_nil _).symm⟩

theorem phraseStep_fst_append (words : List (List Char))
    (acc : List KeywordEntry × List Entity) (ij : Nat × Nat) :
    ∃ l, (phraseStep words acc ij).1 = acc.1 ++ l := by
  unfold phraseStep
  dsimp only
  split
  · exact ⟨[], (List.append_nil _).symm⟩
  · exact ⟨_, rfl⟩

theorem phraseStep_snd_append (words : List (List Char))
    (acc : List KeywordEntry × List Entity) (ij : Nat × Nat) :
    ∃ l, (phraseStep words acc ij).2 = acc.2 ++ l := by
  unfold phraseStep
  dsimp only
  split
  · exact ⟨[], (List.append_nil _).symm⟩
  · split
    · exact ⟨_, rfl⟩
    · exact ⟨[], (List.append_nil _).symm⟩

theorem foldl_fst_append {β : Type} (f : List KeywordEntry × List Entity → β →
      List KeywordEntry × List Entity)
    (hf : ∀ acc x, ∃ l, (f acc x).1 = acc.1 ++ l)
    (xs : List β) (acc : List KeywordEntry × List Entity) :
    ∃ l, (xs.foldl f acc).1 = acc.1 ++ l := by
  induction xs generalizing acc with
  | nil => exact ⟨[], (List.append_nil _).symm⟩
  | cons x xs ih =>
    obtain ⟨l₁, h₁⟩ := hf acc x
    obtain ⟨l₂, h₂⟩ := ih (f acc x)
    exact ⟨l₁ ++ l₂, by rw [List.foldl_cons, h₂, h₁, List.append_assoc]⟩

theorem foldl_snd_append {β : Type} (f : List KeywordEntry × List Entity → β →
      List KeywordEntry × List Entity)
    (hf : ∀ acc x, ∃ l, (f acc x).2 = acc.2 ++ l)
    (xs : List β) (acc : List KeywordEntry × List Entity) :
    ∃ l, (xs.foldl f acc).2 = acc.2 ++ l := by
  induction xs generalizing acc with
  | nil => exact ⟨[], (List.append_nil _).symm⟩
  | cons x xs ih =>
    obtain ⟨l₁, h₁⟩ := hf acc x
    obtain ⟨l₂, h₂⟩ := ih (f acc x)
    exact ⟨l₁ ++ l₂, by rw [List.foldl_cons, h₂, h₁, List.append_assoc]⟩

theorem mem_foldl_fst {β : Type} {f : List KeywordEntry × List Entity → β →
      List KeywordEntry × List Entity}
    (hf : ∀ acc x, ∃ l, (f acc x).1 = acc.1 ++ l)
    {xs : List β} {acc : List KeywordEntry × List Entity} {e : KeywordEntry}
    (he : e ∈ acc.1) : e ∈ (xs.foldl f acc).1 := by
  obtain ⟨l, hl⟩ := foldl_fst_append f hf xs acc
  rw [hl]
  exact List.mem_append_left _ he

theorem mem_foldl_snd {β : Type} {f : List KeywordEntry × List Entity → β →
      List KeywordEntry × List Entity}
    (hf : ∀ acc x, ∃ l, (f acc x).2 = acc.2 ++ l)
    {xs : List β} {acc : List KeywordEntry × List Entity} {e : Entity}
    (he : e ∈ acc.2) : e ∈ (xs.foldl f acc).2 := by
  obtain ⟨l, hl⟩ := foldl_snd_append f hf xs acc
  rw [hl]
  exact List.mem_append_left _ he

/-- The entry pushed for a whole-word target-keyword match. -/
def exactEntry (kw : List Char) : KeywordEntry :=
  { text := kw, relevance := mkRat 95 100, count := 1 }

/-- The entry pushed for a substring-only target-keyword match. -/
def partialEntry (kw : List Char) : KeywordEntry :=
  { text := kw ++ " (partial)".toList, relevance := mkRat 8 10, count := 1 }

/-- The `ProductType` entity pushed for a whole-word match of a
domain-special target keyword. -/
def exactProductEntity (kw : List Char) : Entity :=
  { type := "ProductType".toList, text := kw,
    relevance := mkRat 95 100, confidence := mkRat 9 10, count := 1 }

theorem targetEntryStep_exact (c : List Char)
    (acc : List KeywordEntry × List Entity) (kw : List Char)
    (h : delimBoundedTest (jsLower c) (jsTrim (jsLower kw)) = true) :
    (targetEntryStep c acc kw).1 = acc.1 ++ [exactEntry kw] := by
  unfold targetEntryStep
  dsimp only
  rw [if_pos h]
  rfl

theorem targetEntryStep_exact_snd (c : List Char)
    (acc : List KeywordEntry × List Entity) (kw : List Char)
    (h : delimBoundedTest (jsLower c) (jsTrim (jsLower kw)) = true)
    (hb : jsIncludes (jsLower kw) domainToken = true) :
    (targetEntryStep c acc kw).2 = acc.2 ++ [exactProductEntity kw] := by
  unfold targetEntryStep
  dsimp only
  rw [if_pos h]
  dsimp only
  rw [if_pos hb]
  rfl

theorem targetEntryStep_partial (c : List Char)
    (acc : List KeywordEntry × List Entity) (kw : List Char)
    (h : delimBoundedTest (jsLower c) (jsTrim (jsLower kw)) = false)
    (hs : jsIncludes (jsLower c) (jsTrim (jsLower kw)) = true) :
    (targetEntryStep c acc kw).1 = acc.1 ++ [partialEntry kw] := by
  unfold targetEntryStep
  dsimp only
  rw [if_neg (by simp [h]), if_pos hs]
  rfl

/-- A target keyword whose trimmed, lower-cased text occurs in the
lower-cased content contributes its entry to the keyword list built by the
target-keyword loop: the whole-word entry when the boundary regex fires, the
`" (partial)"` entry otherwise. -/
theorem targetPass_represents (c : List Char) (ks : List (List Char))
    (kw : List Char) (hmem : kw ∈ ks)
    (hs : jsIncludes (jsLower c) (jsTrim (jsLower kw)) = true) :
    (if delimBoundedTest (jsLower c) (jsTrim (jsLower kw)) then exactEntry kw
      else partialEntry kw) ∈ (targetPass c ks).1 := by
  unfold targetPass
  suffices h : ∀ acc : List KeywordEntry × List Entity,
      (if delimBoundedTest (jsLower c) (jsTrim (jsLower kw)) then exactEntry kw
        else partialEntry kw) ∈ (ks.foldl (targetEntryStep c) acc).1 from h _
  intro acc
  induction ks generalizing acc with
  | nil => cases hmem
  | cons k ks ih =>
    rw [List.foldl_cons]
    rcases List.mem_cons.1 hmem with hk | hk
    · subst hk
      apply mem_foldl_fst (targetEntryStep_fst_append c)
      cases hd : delimBoundedTest (jsLower c) (jsTrim (jsLower kw)) with
      | true =>
        rw [if_pos rfl, targetEntryStep_exact c acc kw hd]
        exact List.mem_append_right _ (List.mem_singleton.2 rfl)
      | false =>
        rw [if_neg (by simp), targetEntryStep_partial c acc kw hd hs]
        exact List.mem_append_right _ (List.mem_singleton.2 rfl)
    · exact ih hk _

/-- A whole-word target-keyword match contributes the exact entry, and for a
domain-special keyword the `ProductType` entity, to the lists built by the
target-keyword loop. -/
theorem targetPass_exact (c : List Char) (ks : List (List Char))
    (kw : List Char) (hmem : kw ∈ ks)
    (hd : delimBoundedTest (jsLower c) (jsTrim (jsLower kw)) = true) :
    exactEntry kw ∈ (targetPass c ks).1 ∧
      (jsIncludes (jsLower kw) domainToken = true →
        exactProductEntity kw ∈ (targetPass c ks).2) := by
  have hrep := targetPass_represents c ks kw hmem ?_
  · constructor
    · rw [if_pos hd] at hrep
      exact hrep
    · intro hb
      unfold targetPass
      suffices h : ∀ acc : List KeywordEntry × List Entity,
          exactProductEntity kw ∈ (ks.foldl (targetEntryStep c) acc).2 from h _
      intro acc
      clear hrep
      induction ks generalizing acc with
      | nil => cases hmem
      | cons k ks ih =>
        rw [List.foldl_cons]
        rcases List.mem_cons.1 hmem with hk | hk
        · subst hk
          apply mem_foldl_snd (targetEntryStep_snd_append c)
          rw [targetEntryStep_exact_snd c acc kw hd hb]
          exact List.mem_append_right _ (List.mem_singleton.2 rfl)
        · exact ih hk _
  · -- the whole-word regex only fires on an occurrence, so the substring
    -- test holds as well
    unfold delimBoundedTest at hd
    rw [List.any_eq_true] at hd
    obtain ⟨i, _, hi⟩ := hd
    rw [Bool.and_assoc, Bool.and_eq_true, Bool.and_eq_true] at hi
    have htake := of_decide_eq_true hi.2.1
    unfold jsIncludes
    apply decide_eq_true
    exact htake ▸ ((List.take_prefix _ _).isInfix.trans
      (List.drop_suffix i (jsLower c)).isInfix)

/-! ## Helper lemmas: sorting and truncation -/

theorem sortByRelevanceDesc_perm (l : List KeywordEntry) :
    (sortByRelevanceDesc l).Perm l :=
  List.perm_insertionSort relDesc l

theorem sortByRelevanceDesc_pairwise (l : List KeywordEntry) :
    (sortByRelevanceDesc l).Pairwise relDesc :=
  List.sorted_insertionSort relDesc l

theorem mem_sortByRelevanceDesc {l : List KeywordEntry} {x : KeywordEntry} :
    x ∈ sortByRelevanceDesc l ↔ x ∈ l :=
  List.mem_insertionSort relDesc

/-- In a list sorted by non-increasing relevance, a member either survives a
`take n` truncation, or the truncated list is full with `n` entries each of
relevance at least the member's. -/
theorem mem_take_or_outranked {l : List KeywordEntry} {x : KeywordEntry}
    (hx : x ∈ l) (hs : l.Pairwise relDesc) (n : Nat) :
    x ∈ l.take n ∨
      ((l.take n).length = n ∧ ∀ y ∈ l.take n, x.relevance ≤ y.relevance) := by
  rcases List.mem_append.1 ((List.take_append_drop n l).symm ▸ hx) with h | h
  · exact Or.inl h
  · right
    have hsplit : List.Pairwise relDesc (l.take n ++ l.drop n) := by
      rw [List.take_append_drop]
      exact hs
    have hcross := (List.pairwise_append.1 hsplit).2.2
    constructor
    · have hlen : n < l.length := by
        by_contra hle
        rw [List.drop_eq_nil_of_le (Nat.le_of_not_lt hle)] at h
        cases h
      rw [List.length_take]
      exact Nat.min_eq_left (Nat.le_of_lt hlen)
    · intro y hy
      exact hcross y hy x h

/-! ## Helper lemmas: the phrase loops -/

/-- `added` extends `pre` without case-insensitive duplicates: each element
of `added` differs, lower-cased, from everything before it (both the
pre-existing entries and the earlier added ones). -/
def freshAppend (pre : List KeywordEntry) : List KeywordEntry → Prop
  | [] => True
  | e :: rest => (∀ k ∈ pre, jsLower k.text ≠ jsLower e.text) ∧
      freshAppend (pre ++ [e]) rest

theorem phraseStep_of_skip (words : List (List Char))
    (acc : List KeywordEntry × List Entity) (ij : Nat × Nat)
    (h : phraseSkip words acc.1 ij = true) :
    phraseStep words acc ij = acc := by
  unfold phraseStep
  dsimp only
  rw [if_pos h]

theorem phraseStep_fst_of_push (words : List (List Char))
    (acc : List KeywordEntry × List Entity) (ij : Nat × Nat)
    (h : phraseSkip words acc.1 ij = false) :
    (phraseStep words acc ij).1 = acc.1 ++
      [{ text := phraseAt words ij.1 ij.2,
         relevance := mkRat (7 - (ij.2 : Int)) 10, count := 1 }] := by
  unfold phraseStep
  dsimp only
  rw [if_neg (by simp [h])]

/-- What the phrase loops add to the keyword list: every added entry is a
phrase of 3 or more characters with relevance `0.7 - 0.1 * j` for a window
size `j` between 1 and 3, and no added entry duplicates (case-insensitively)
an entry present when it was pushed. -/
theorem foldl_phraseStep_added (words : List (List Char))
    (ps : List (Nat × Nat)) (hps : ∀ p ∈ ps, 1 ≤ p.2 ∧ p.2 ≤ 3)
    (acc : List KeywordEntry × List Entity) :
    ∃ added, (ps.foldl (phraseStep words) acc).1 = acc.1 ++ added ∧
      (∀ e ∈ added, 3 ≤ e.text.length ∧
        ∃ j : Nat, 1 ≤ j ∧ j ≤ 3 ∧ e.relevance = mkRat (7 - (j : Int)) 10) ∧
      freshAppend acc.1 added := by
  induction ps generalizing acc with
  | nil => exact ⟨[], (List.append_nil _).symm, by simp, trivial⟩
  | cons p ps ih =>
    rw [List.foldl_cons]
    have hp := hps p (List.mem_cons_self p ps)
    have hps' : ∀ q ∈ ps, 1 ≤ q.2 ∧ q.2 ≤ 3 :=
      fun q hq => hps q (List.mem_cons_of_mem p hq)
    cases hskip : phraseSkip words acc.1 p with
    | true =>
      rw [phraseStep_of_skip words acc p hskip]
      exact ih hps' acc
    | false =>
      obtain ⟨added, hadd, hprops, hfresh⟩ := ih hps' (phraseStep words acc p)
      rw [phraseStep_fst_of_push words acc p hskip] at hadd hfresh
      refine ⟨{ text := phraseAt words p.1 p.2,
                relevance := mkRat (7 - (p.2 : Int)) 10, count := 1 } :: added,
        by rw [hadd, List.append_assoc]; rfl, ?_, ?_⟩
      · intro e he
        rcases List.mem_cons.1 he with he | he
        · subst he
          refine ⟨?_, p.2, hp.1, hp.2, rfl⟩
          have := (Bool.or_eq_false_iff.1 hskip).1
          simpa using Nat.le_of_not_lt (by simpa using this)
        · exact hprops e he
      · refine ⟨?_, hfresh⟩
        intro k hk
        have := (Bool.or_eq_false_iff.1 hskip).2
        rw [List.any_eq_false] at this
        have hne := this k hk
        simpa using fun hEq => hne (by simpa using hEq)

/-! ## Helper lemmas: trimming, lower-casing and substring occurrence -/

theorem jsIncludes_eq_true {s p : List Char} :
    jsIncludes s p = true ↔ p <:+: s := by
  unfold jsIncludes
  exact decide_eq_true_iff

theorem toNat_ofNat_of_lt (n : Nat) (h : n < 55296) :
    (Char.ofNat n).toNat = n := by
  rw [Char.ofNat, dif_pos (Or.inl (by omega))]
  simp [Char.ofNatAux, Char.toNat, UInt32.ofNat', UInt32.toNat,
    BitVec.toNat_ofNatLt]

theorem isWsChar_eq_false (c : Char) (h32 : c.toNat ≠ 32) (h9 : c.toNat ≠ 9)
    (h10 : c.toNat ≠ 10) (h13 : c.toNat ≠ 13) : isWsChar c = false := by
  unfold isWsChar
  rw [decide_eq_false (fun hc : c = ' ' => h32 (by rw [hc]; rfl)),
      decide_eq_false (fun hc : c = '\t' => h9 (by rw [hc]; rfl)),
      decide_eq_false (fun hc : c = '\n' => h10 (by rw [hc]; rfl)),
      decide_eq_false (fun hc : c = '\r' => h13 (by rw [hc]; rfl))]
  rfl

/-- Lower-casing does not change whether a character is whitespace. -/
theorem isWsChar_toLower (c : Char) : isWsChar c.toLower = isWsChar c := by
  unfold Char.toLower
  dsimp only
  split
  · rename_i h
    have hlow : (Char.ofNat (c.toNat + 32)).toNat = c.toNat + 32 :=
      toNat_ofNat_of_lt _ (by omega)
    rw [isWsChar_eq_false c (by omega) (by omega) (by omega) (by omega),
        isWsChar_eq_false _ (by omega) (by omega) (by omega) (by omega)]
  · rfl

theorem head?_dropWhile_false (p : Char → Bool) (l : List Char) (c : Char)
    (h : (l.dropWhile p).head? = some c) : p c = false := by
  induction l with
  | nil => simp at h
  | cons a l ih =>
    rw [List.dropWhile_cons] at h
    split at h
    · exact ih h
    · rename_i ha
      simp only [List.head?_cons, Option.some.injEq] at h
      subst h
      exact Bool.eq_false_iff.2 ha

theorem jsTrim_prefix_dropWhile (s : List Char) :
    jsTrim s <+: s.dropWhile isWsChar := by
  have h := List.reverse_prefix.2
    (List.dropWhile_suffix (l := (s.dropWhile isWsChar).reverse) isWsChar)
  rw [List.reverse_reverse] at h
  exact h

/-- The trimmed string occurs inside the original. -/
theorem jsTrim_occurs (s : List Char) : jsTrim s <:+: s :=
  (jsTrim_prefix_dropWhile s).isInfix.trans (List.dropWhile_suffix _).isInfix

/-- A trimmed string does not start with whitespace. -/
theorem jsTrim_head? (s : List Char) (c : Char)
    (h : (jsTrim s).head? = some c) : isWsChar c = false := by
  obtain ⟨t, ht⟩ := jsTrim_prefix_dropWhile s
  have hh : (s.dropWhile isWsChar).head? = some c := by
    rw [← ht, List.head?_append, h]
    rfl
  exact head?_dropWhile_false _ _ _ hh

/-- A trimmed string does not end with whitespace. -/
theorem jsTrim_getLast? (s : List Char) (c : Char)
    (h : (jsTrim s).getLast? = some c) : isWsChar c = false := by
  unfold jsTrim at h
  rw [List.getLast?_reverse] at h
  exact head?_dropWhile_false _ _ _ h

theorem dropWhile_append_middle (p : Char → Bool) (u k v : List Char)
    (c : Char) (hh : k.head? = some c) (hc : p c = false) :
    ∃ w, (u ++ (k ++ v)).dropWhile p = w ++ (k ++ v) := by
  rw [List.dropWhile_append]
  split
  · cases k with
    | nil => simp at hh
    | cons a k =>
      simp only [List.head?_cons, Option.some.injEq] at hh
      subst hh
      exact ⟨[], by
        rw [List.cons_append, List.dropWhile_cons_of_neg (by simp [hc])]
        rfl⟩
  · exact ⟨u.dropWhile p, rfl⟩

/-- An occurrence of a string that neither starts nor ends with whitespace
survives trimming the surrounding text. -/
theorem infix_jsTrim_of_infix (k L : List Char)
    (hh : ∀ c, k.head? = some c → isWsChar c = false)
    (hl : ∀ c, k.getLast? = some c → isWsChar c = false)
    (h : k <:+: L) : k <:+: jsTrim L := by
  cases k with
  | nil => exact List.nil_infix
  | cons a k0 =>
    set k := a :: k0 with hk
    have hhead : k.head? = some a := rfl
    obtain ⟨c1, hc1⟩ : ∃ c1, k.getLast? = some c1 := by
      cases hg : k.getLast? with
      | none => exact absurd (List.getLast?_eq_none_iff.1 hg) (by simp [hk])
      | some c1 => exact ⟨c1, rfl⟩
    obtain ⟨u, v, huv⟩ := h
    have huv' : u ++ (k ++ v) = L := by rw [← List.append_assoc]; exact huv
    obtain ⟨w1, hw1⟩ :=
      dropWhile_append_middle isWsChar u k v a hhead (hh a hhead)
    rw [huv'] at hw1
    unfold jsTrim
    rw [hw1]
    have hrev : (w1 ++ (k ++ v)).reverse = v.reverse ++ (k.reverse ++ w1.reverse) := by
      rw [List.reverse_append, List.reverse_append, List.append_assoc]
    rw [hrev]
    have hhead2 : k.reverse.head? = some c1 := by
      rw [List.head?_reverse]
      exact hc1
    obtain ⟨w2, hw2⟩ :=
      dropWhile_append_middle isWsChar v.reverse k.reverse w1.reverse c1
        hhead2 (hl c1 hc1)
    rw [hw2]
    refine ⟨w1, w2.reverse, ?_⟩
    rw [List.reverse_append, List.reverse_append, List.reverse_reverse,
      List.reverse_reverse]

theorem map_toLower_dropWhile (l : List Char) :
    (l.map Char.toLower).dropWhile isWsChar =
      (l.dropWhile isWsChar).map Char.toLower := by
  rw [List.dropWhile_map]
  have hcomp : isWsChar ∘ Char.toLower = isWsChar := funext isWsChar_toLower
  rw [hcomp]

/-- Lower-casing commutes with trimming. -/
theorem jsLower_jsTrim (s : List Char) :
    jsLower (jsTrim s) = jsTrim (jsLower s) := by
  unfold jsTrim jsLower
  rw [List.map_reverse, ← map_toLower_dropWhile, List.map_reverse,
    ← map_toLower_dropWhile]

/-- The entity update `trimEntityTexts` performs: every entity text replaced
by its trimmed form, the rest of the result unchanged. -/
def trimEntityTexts (r : AnalysisResult) : AnalysisResult :=
  { r with entities :=
      r.entities.map fun es => es.map fun e => { e with text := jsTrim e.text } }

/-- The entity-containment test of rule 6 can only gain matches when entity
texts are trimmed (the keyword side is already trimmed by the source). -/
theorem entity_containment_mono (kw : List Char) (e : Entity)
    (h : (jsIncludes (jsLower e.text) (jsTrim (jsLower kw)) ||
      jsIncludes (jsTrim (jsLower kw)) (jsLower e.text)) = true) :
    (jsIncludes (jsLower (jsTrim e.text)) (jsTrim (jsLower kw)) ||
      jsIncludes (jsTrim (jsLower kw)) (jsLower (jsTrim e.text))) = true := by
  rw [Bool.or_eq_true] at h ⊢
  rw [jsLower_jsTrim]
  rcases h with h | h
  · left
    rw [jsIncludes_eq_true] at h ⊢
    exact infix_jsTrim_of_infix _ _
      (fun c hc => jsTrim_head? (jsLower kw) c hc)
      (fun c hc => jsTrim_getLast? (jsLower kw) c hc) h
  · right
    rw [jsIncludes_eq_true] at h ⊢
    exact (jsTrim_occurs (jsLower e.text)).trans h

theorem phrasePairs_bounds (n : Nat) :
    ∀ p ∈ phrasePairs n, 1 ≤ p.2 ∧ p.2 ≤ 3 := by
  intro p hp
  unfold phrasePairs at hp
  simp only [List.mem_flatMap, List.mem_filterMap, List.mem_range] at hp
  obtain ⟨i, _, j, hj, hif⟩ := hp
  split at hif
  · rw [Option.some.injEq] at hif
    subst hif
    simp only [List.mem_cons, List.not_mem_nil, or_false] at hj
    rcases hj with rfl | rfl | rfl <;> simp
  · cases hif

theorem wordBoundaryTest_nil (p : List Char) :
    wordBoundaryTest [] p = false := by
  unfold wordBoundaryTest boundaryAt wordAt
  simp

/-! ## The claims -/

/-- C6: `checkKeywordStatus` is total and returns one of the four tiers,
returning `missing` whenever the result is absent, its `keywords` field is
absent, or the keyword is empty; and `mockAnalysisForKeywords` treats an
absent `entities` source exactly as an empty entity list. -/
theorem checkKeywordStatus_total_defaults :
    (∀ (ext : ExternalMatchers) (kw : List Char),
      checkKeywordStatus ext kw none = .missing) ∧
    (∀ (ext : ExternalMatchers) (kw : List Char) (ot : Option (List Char))
        (ent : Option (List Entity)),
      checkKeywordStatus ext kw (some ⟨ot, none, ent⟩) = .missing) ∧
    (∀ (ext : ExternalMatchers) (r : Option AnalysisResult),
      checkKeywordStatus ext [] r = .missing) ∧
    (∀ (ext : ExternalMatchers) (kw : List Char) (r : Option AnalysisResult),
      checkKeywordStatus ext kw r = .exact ∨
      checkKeywordStatus ext kw r = .partialMatch ∨
      checkKeywordStatus ext kw r = .relevant ∨
      checkKeywordStatus ext kw r = .missing) ∧
    (∀ (ot : Option (List Char)) (okw : Option (List KeywordEntry))
        (content : List Char) (targets : List (List Char)),
      mockAnalysisForKeywords ⟨ot, okw, none⟩ content targets =
        mockAnalysisForKeywords ⟨ot, okw, some []⟩ content targets) := by
  refine ⟨fun ext kw => rfl, fun ext kw ot ent => rfl, ?_, ?_, ?_⟩
  · intro ext r
    match r with
    | none => rfl
    | some ⟨ot, none, ent⟩ => rfl
    | some ⟨ot, some kws, ent⟩ => rfl
  · intro ext kw r
    cases h : checkKeywordStatus ext kw r
    · exact Or.inl rfl
    · exact Or.inr (Or.inl rfl)
    · exact Or.inr (Or.inr (Or.inl rfl))
    · exact Or.inr (Or.inr (Or.inr rfl))
  · intro ot okw content targets
    rfl

/-- C7: the `keywords` field of the generator's output is exactly the
accumulated candidates sorted by non-increasing relevance and truncated to
the first 15; in particular it is sorted by non-increasing relevance and
never longer than 15. -/
theorem mock_keywords_sorted_truncated (results : AnalysisResult)
    (content : List Char) (targets : List (List Char)) :
    (mockAnalysisForKeywords results content targets).keywords =
      some ((sortByRelevanceDesc (mockCandidates content targets).1).take 15) ∧
    ((sortByRelevanceDesc (mockCandidates content targets).1).take 15).Pairwise
      relDesc ∧
    ((sortByRelevanceDesc (mockCandidates content targets).1).take 15).length
      ≤ 15 := by
  refine ⟨rfl, (sortByRelevanceDesc_pairwise _).take, ?_⟩
  rw [List.length_take]
  exact Nat.min_le_left _ _

/-- C8: the generator's output entity list is the newly discovered
`ProductType` entities followed by the source entities (each group in its
own order), and the discovered list alone when the source has none. -/
theorem mock_entities_prepend (results : AnalysisResult)
    (content : List Char) (targets : List (List Char)) :
    (mockAnalysisForKeywords results content targets).entities =
      some ((mockCandidates content targets).2 ++ results.entities.getD []) ∧
    (results.entities = none →
      (mockAnalysisForKeywords results content targets).entities =
        some ((mockCandidates content targets).2)) := by
  constructor
  · unfold mockAnalysisForKeywords
    dsimp only
    cases h : results.entities with
    | none => simp
    | some es =>
      cases es with
      | nil => simp
      | cons e es => simp
  · intro h
    unfold mockAnalysisForKeywords
    dsimp only
    rw [h]

/-- C9: the phrase-extraction step only appends entries, every entry it
appends has a text of at least 3 characters, and no appended entry
duplicates, case-insensitively, an entry present at its insertion time. -/
theorem phrase_extraction_no_short_no_dup (content : List Char)
    (targets : List (List Char)) :
    ∃ added, (mockCandidates content targets).1 =
        (targetPass content targets).1 ++ added ∧
      (∀ e ∈ added, 3 ≤ e.text.length) ∧
      freshAppend (targetPass content targets).1 added := by
  obtain ⟨added, h1, h2, h3⟩ := foldl_phraseStep_added (jsSplitWs content)
    (phrasePairs (jsSplitWs content).length)
    (phrasePairs_bounds _) (targetPass content targets)
  exact ⟨added, h1, fun e he => (h2 e he).1, h3⟩

/-- C2: a target keyword matched as a whole word (boundaries: start/end of
string, whitespace or `[,.;!?]`, case-insensitively) contributes the entry
`{text: keyword, relevance: 0.95, count: 1}` to the candidate list, plus the
`ProductType` entity when the lower-cased keyword contains the domain
substring; in particular for targetKeywords = ["support"] and content
"Great support for everyone" the output carries entry "support" at 0.95. -/
theorem whole_word_target_entry_added :
    (∀ (content : List Char) (targets : List (List Char)) (kw : List Char),
      kw ∈ targets →
      delimBoundedTest (jsLower content) (jsTrim (jsLower kw)) = true →
      exactEntry kw ∈ (mockCandidates content targets).1 ∧
      (jsIncludes (jsLower kw) domainToken = true →
        exactProductEntity kw ∈ (mockCandidates content targets).2)) ∧
    (∃ e ∈ ((mockAnalysisForKeywords ⟨none, none, none⟩
        "Great support for everyone".toList
        ["support".toList]).keywords.getD []),
      e.text = "support".toList ∧ e.relevance = mkRat 95 100) := by
  constructor
  · intro content targets kw hmem hd
    obtain ⟨h1, h2⟩ := targetPass_exact content targets kw hmem hd
    exact ⟨mem_foldl_fst (phraseStep_fst_append _) h1,
      fun hb => mem_foldl_snd (phraseStep_snd_append _) (h2 hb)⟩
  · decide

/-- C1 (amended): a target keyword whose trimmed lower-cased text occurs in
the lower-cased content is pushed as its exact (0.95) or `" (partial)"`
(0.8) entry; the entry survives into the output keyword list unless the
truncation drops it, which can happen exactly when the output is full with
15 entries of relevance at least as high (not necessarily strictly
higher). -/
theorem target_substring_represented_or_outranked (results : AnalysisResult)
    (content : List Char) (targets : List (List Char)) (kw : List Char)
    (hmem : kw ∈ targets)
    (hs : jsIncludes (jsLower content) (jsTrim (jsLower kw)) = true) :
    ∃ e : KeywordEntry,
      ((e.text = kw ∧ e.relevance = mkRat 95 100) ∨
        (e.text = kw ++ " (partial)".toList ∧ e.relevance = mkRat 8 10)) ∧
      (e ∈ ((mockAnalysisForKeywords results content targets).keywords.getD
          []) ∨
        ((((mockAnalysisForKeywords results content
            targets).keywords.getD []).length = 15) ∧
          ∀ y ∈ ((mockAnalysisForKeywords results content
            targets).keywords.getD []), e.relevance ≤ y.relevance)) := by
  have hc : (if delimBoundedTest (jsLower content) (jsTrim (jsLower kw))
        then exactEntry kw else partialEntry kw) ∈
      (mockCandidates content targets).1 :=
    mem_foldl_fst (phraseStep_fst_append _)
      (targetPass_represents content targets kw hmem hs)
  have hsort : (if delimBoundedTest (jsLower content) (jsTrim (jsLower kw))
        then exactEntry kw else partialEntry kw) ∈
      sortByRelevanceDesc (mockCandidates content targets).1 :=
    mem_sortByRelevanceDesc.2 hc
  have hout : ((mockAnalysisForKeywords results content targets).keywords.getD
      []) = (sortByRelevanceDesc (mockCandidates content targets).1).take 15 :=
    rfl
  refine ⟨if delimBoundedTest (jsLower content) (jsTrim (jsLower kw))
    then exactEntry kw else partialEntry kw, ?_, ?_⟩
  · split
    · exact Or.inl ⟨rfl, rfl⟩
    · exact Or.inr ⟨rfl, rfl⟩
  · rw [hout]
    rcases mem_take_or_outranked hsort (sortByRelevanceDesc_pairwise _) 15
      with h | ⟨h1, h2⟩
    · exact Or.inl h
    · exact Or.inr ⟨h1, h2⟩

/-- Witness for C1's amended theorem at targetKeywords = ["support"],
content "Great support for everyone". -/
theorem target_substring_represented_or_outranked_witness :
    ∃ e : KeywordEntry,
      ((e.text = "support".toList ∧ e.relevance = mkRat 95 100) ∨
        (e.text = "support".toList ++ " (partial)".toList ∧
          e.relevance = mkRat 8 10)) ∧
      (e ∈ ((mockAnalysisForKeywords ⟨none, none, none⟩
          "Great support for everyone".toList
          ["support".toList]).keywords.getD []) ∨
        ((((mockAnalysisForKeywords ⟨none, none, none⟩
            "Great support for everyone".toList
            ["support".toList]).keywords.getD []).length = 15) ∧
          ∀ y ∈ ((mockAnalysisForKeywords ⟨none, none, none⟩
            "Great support for everyone".toList
            ["support".toList]).keywords.getD []),
            e.relevance ≤ y.relevance)) :=
  target_substring_represented_or_outranked ⟨none, none, none⟩
    "Great support for everyone".toList ["support".toList] "support".toList
    (by decide) (by decide)

set_option maxRecDepth 100000 in
/-- C1 counterexample: with 16 two-letter target keywords all present as
whole words, "pp" occurs in the content (its trimmed lower-cased text is a
substring) yet neither a "pp" nor a "pp (partial)" entry appears in the
output keyword list, while not a single candidate — let alone 15 — has
relevance strictly above 0.95. -/
theorem sixteenth_target_dropped_no_higher_relevance :
    jsIncludes
      (jsLower "aa bb cc dd ee ff gg hh ii jj kk ll mm nn oo pp".toList)
      (jsTrim (jsLower "pp".toList)) = true ∧
    "pp".toList ∈ (["aa", "bb", "cc", "dd", "ee", "ff", "gg", "hh", "ii",
      "jj", "kk", "ll", "mm", "nn", "oo", "pp"].map String.toList) ∧
    (¬ ∃ e ∈ ((mockAnalysisForKeywords ⟨none, none, none⟩
        "aa bb cc dd ee ff gg hh ii jj kk ll mm nn oo pp".toList
        (["aa", "bb", "cc", "dd", "ee", "ff", "gg", "hh", "ii",
          "jj", "kk", "ll", "mm", "nn", "oo", "pp"].map
            String.toList)).keywords.getD []),
      (e.text = "pp".toList ∨ e.text = "pp (partial)".toList)) ∧
    (¬ ∃ e ∈ (mockCandidates
        "aa bb cc dd ee ff gg hh ii jj kk ll mm nn oo pp".toList
        (["aa", "bb", "cc", "dd", "ee", "ff", "gg", "hh", "ii",
          "jj", "kk", "ll", "mm", "nn", "oo", "pp"].map String.toList)).1,
      mkRat 95 100 < e.relevance) := by
  decide

theorem targetEntryStep_fst_cases (c : List Char)
    (acc : List KeywordEntry × List Entity) (kw : List Char) :
    (targetEntryStep c acc kw).1 = acc.1 ++ [exactEntry kw] ∨
    (targetEntryStep c acc kw).1 = acc.1 ++ [partialEntry kw] ∨
    (targetEntryStep c acc kw).1 = acc.1 := by
  unfold targetEntryStep
  dsimp only
  split
  · exact Or.inl rfl
  · split
    · exact Or.inr (Or.inl rfl)
    · exact Or.inr (Or.inr rfl)

/-- Every entry the target-keyword loop produces carries relevance 0.95 or
0.8. -/
theorem targetPass_relevances (c : List Char) (ks : List (List Char)) :
    ∀ e ∈ (targetPass c ks).1,
      e.relevance = mkRat 95 100 ∨ e.relevance = mkRat 8 10 := by
  unfold targetPass
  suffices h : ∀ acc : List KeywordEntry × List Entity,
      (∀ e ∈ acc.1, e.relevance = mkRat 95 100 ∨ e.relevance = mkRat 8 10) →
      ∀ e ∈ (ks.foldl (targetEntryStep c) acc).1,
        e.relevance = mkRat 95 100 ∨ e.relevance = mkRat 8 10 from
    h ([], []) (by intro e he; cases he)
  induction ks with
  | nil => exact fun acc hacc => hacc
  | cons k ks ih =>
    intro acc hacc
    rw [List.foldl_cons]
    refine ih (targetEntryStep c acc k) ?_
    intro e he
    rcases targetEntryStep_fst_cases c acc k with hcs | hcs | hcs <;>
      rw [hcs] at he
    · rcases List.mem_append.1 he with h | h
      · exact hacc e h
      · rw [List.mem_singleton.1 h]
        exact Or.inl rfl
    · rcases List.mem_append.1 he with h | h
      · exact hacc e h
      · rw [List.mem_singleton.1 h]
        exact Or.inr rfl
    · exact hacc e he

/-- C10: target-derived entries carry relevance 0.95 or 0.8 while every
supplementary phrase entry carries `0.7 - 0.1·j ≤ 0.6` for its window size
`j ∈ [1,3]`; consequently, in the sorted output the positions holding
relevance at least 0.8 form a prefix (every target-derived entry precedes
every supplementary one), and when at most 15 target keywords matched the
content, no target-derived entry is removed by the top-15 truncation. -/
theorem target_entries_outrank_phrases (results : AnalysisResult)
    (content : List Char) (targets : List (List Char)) :
    (∀ e ∈ (targetPass content targets).1,
      e.relevance = mkRat 95 100 ∨ e.relevance = mkRat 8 10) ∧
    (∃ added, (mockCandidates content targets).1 =
        (targetPass content targets).1 ++ added ∧
      ∀ e ∈ added, (∃ j : Nat, 1 ≤ j ∧ j ≤ 3 ∧
          e.relevance = mkRat (7 - (j : Int)) 10) ∧
        e.relevance ≤ mkRat 3 5) ∧
    (∀ (i j : Nat)
      (hi : i < (sortByRelevanceDesc (mockCandidates content targets).1).length)
      (hj : j < (sortByRelevanceDesc (mockCandidates content targets).1).length),
      i < j →
      mkRat 8 10 ≤ ((sortByRelevanceDesc
        (mockCandidates content targets).1).get ⟨j, hj⟩).relevance →
      mkRat 8 10 ≤ ((sortByRelevanceDesc
        (mockCandidates content targets).1).get ⟨i, hi⟩).relevance) ∧
    ((targetPass content targets).1.length ≤ 15 →
      ∀ e ∈ (targetPass content targets).1,
        e ∈ ((mockAnalysisForKeywords results content
          targets).keywords.getD [])) := by
  obtain ⟨added, hadded, hprops, -⟩ := foldl_phraseStep_added
    (jsSplitWs content) (phrasePairs (jsSplitWs content).length)
    (phrasePairs_bounds _) (targetPass content targets)
  have haddedc : (mockCandidates content targets).1 =
      (targetPass content targets).1 ++ added := hadded
  have haddbound : ∀ e ∈ added, (∃ j : Nat, 1 ≤ j ∧ j ≤ 3 ∧
      e.relevance = mkRat (7 - (j : Int)) 10) ∧ e.relevance ≤ mkRat 3 5 := by
    intro e he
    obtain ⟨-, j, hj1, hj3, hrel⟩ := hprops e he
    refine ⟨⟨j, hj1, hj3, hrel⟩, ?_⟩
    have hj : j = 1 ∨ j = 2 ∨ j = 3 := by omega
    rcases hj with rfl | rfl | rfl <;> rw [hrel] <;> decide
  refine ⟨targetPass_relevances content targets, ⟨added, haddedc, haddbound⟩,
    ?_, ?_⟩
  · intro i j hi hj hij hrelj
    have hp := List.pairwise_iff_getElem.1
      (sortByRelevanceDesc_pairwise (mockCandidates content targets).1)
      i j hi hj hij
    exact le_trans hrelj hp
  · intro hlen e he
    have hrel : mkRat 8 10 ≤ e.relevance := by
      rcases targetPass_relevances content targets e he with h | h
      · rw [h]
        decide
      · rw [h]
    have hcand : e ∈ (mockCandidates content targets).1 :=
      mem_foldl_fst (phraseStep_fst_append _) he
    have hes : e ∈ sortByRelevanceDesc (mockCandidates content targets).1 :=
      mem_sortByRelevanceDesc.2 hcand
    show e ∈ (sortByRelevanceDesc (mockCandidates content targets).1).take 15
    set s := sortByRelevanceDesc (mockCandidates content targets).1 with hsdef
    by_contra hnot
    have hdrop : e ∈ s.drop 15 := by
      rcases List.mem_append.1 ((List.take_append_drop 15 s).symm ▸ hes)
        with h | h
      · exact absurd h hnot
      · exact h
    have hpair : List.Pairwise relDesc (s.take 15 ++ s.drop 15) := by
      rw [List.take_append_drop]
      exact sortByRelevanceDesc_pairwise _
    have hcross := (List.pairwise_append.1 hpair).2.2
    have hlen15 : (s.take 15).length = 15 := by
      have hslen : 15 < s.length := by
        by_contra hle
        rw [List.drop_eq_nil_of_le (Nat.le_of_not_lt hle)] at hdrop
        cases hdrop
      rw [List.length_take]
      exact Nat.min_eq_left (Nat.le_of_lt hslen)
    have h1 : List.countP
        (fun y : KeywordEntry => decide (mkRat 8 10 ≤ y.relevance))
        (s.take 15) = 15 := by
      rw [List.countP_eq_length.2, hlen15]
      intro y hy
      exact decide_eq_true (le_trans hrel (hcross y hy e hdrop))
    have h2 : 0 < List.countP
        (fun y : KeywordEntry => decide (mkRat 8 10 ≤ y.relevance))
        (s.drop 15) :=
      List.countP_pos_iff.2 ⟨e, hdrop, decide_eq_true hrel⟩
    have h3 : List.countP
        (fun y : KeywordEntry => decide (mkRat 8 10 ≤ y.relevance)) s =
        List.countP (fun y : KeywordEntry =>
            decide (mkRat 8 10 ≤ y.relevance)) (s.take 15) +
          List.countP (fun y : KeywordEntry =>
            decide (mkRat 8 10 ≤ y.relevance)) (s.drop 15) := by
      rw [← List.countP_append, List.take_append_drop]
    have h4 : List.countP
        (fun y : KeywordEntry => decide (mkRat 8 10 ≤ y.relevance)) s =
        List.countP (fun y : KeywordEntry =>
          decide (mkRat 8 10 ≤ y.relevance))
          (mockCandidates content targets).1 :=
      (sortByRelevanceDesc_perm _).countP_eq _
    have h5 : List.countP
        (fun y : KeywordEntry => decide (mkRat 8 10 ≤ y.relevance))
        (mockCandidates content targets).1 ≤ 15 := by
      rw [haddedc, List.countP_append]
      have hz : List.countP
          (fun y : KeywordEntry => decide (mkRat 8 10 ≤ y.relevance))
          added = 0 := by
        rw [List.countP_eq_zero]
        intro a ha hcontra
        have hb := (haddbound a ha).2
        have := le_trans (of_decide_eq_true hcontra) hb
        exact absurd this (by decide)
      rw [hz, Nat.add_zero]
      exact le_trans (List.countP_le_length _) hlen
    omega

/-- C3: when the lower-cased keyword contains the domain substring `'bras'`
and a whole-word, case-insensitive match of the (trimmed, lower-cased)
keyword exists in `optimizedText`, `checkKeywordStatus` returns `exact`
before consulting the keyword or entity lists — for any `keywords` value,
the empty list included, and for any external matchers. -/
theorem domain_bypass_returns_exact (ext : ExternalMatchers) (kw : List Char)
    (r : AnalysisResult) (kws : List KeywordEntry)
    (hk : r.keywords = some kws)
    (hbras : jsIncludes (jsTrim (jsLower kw)) domainToken = true)
    (hw : wordBoundaryTest (jsLower (r.optimizedText.getD []))
      (jsTrim (jsLower kw)) = true) :
    checkKeywordStatus ext kw (some r) = .exact := by
  have hkw : kw.isEmpty = false := by
    cases kw with
    | nil =>
      rw [show jsTrim (jsLower ([] : List Char)) = [] from rfl] at hbras
      rw [jsIncludes_eq_true] at hbras
      rw [List.infix_nil] at hbras
      exact absurd hbras (by decide)
    | cons a l => rfl
  have hne : (r.optimizedText.getD []).isEmpty = false := by
    cases h : r.optimizedText.getD [] with
    | nil =>
      rw [h] at hw
      rw [show jsLower ([] : List Char) = [] from rfl] at hw
      rw [wordBoundaryTest_nil] at hw
      cases hw
    | cons a l => rfl
  obtain ⟨ot, okw, ent⟩ := r
  simp only [AnalysisResult.keywords] at hk
  subst hk
  simp only [checkKeywordStatus]
  rw [hkw]
  simp only [Bool.false_eq_true, if_false]
  rw [if_pos]
  rw [hne, hbras]
  simp only [AnalysisResult.optimizedText] at hw ⊢
  rw [hw]
  rfl

/-- Witness for C3: classifying "wireless bras" against a result whose
`optimizedText` holds "our wireless bras rock" and whose keyword list is
empty returns `exact` (here under the spec-modelled external matchers). -/
theorem domain_bypass_returns_exact_witness :
    checkKeywordStatus specMatchers "wireless bras".toList
      (some ⟨some "our wireless bras rock".toList, some [], none⟩) =
      .exact :=
  domain_bypass_returns_exact specMatchers "wireless bras".toList
    ⟨some "our wireless bras rock".toList, some [], none⟩ [] rfl
    (by decide) (by decide)

/-- C4: when the guard passes and rules 1-5 all fail, two-way substring
containment against an entity text yields `exact`, while the same two-way
containment against a keyword entry text (rules 1-3 failing) yields only
`partial` — the entity tier is strictly stronger. -/
theorem entity_exact_vs_keyword_partial :
    (∀ (ext : ExternalMatchers) (kw : List Char) (ot : Option (List Char))
        (kws : List KeywordEntry) (es : List Entity),
      kw.isEmpty = false →
      (!(ot.getD []).isEmpty &&
        jsIncludes (jsTrim (jsLower kw)) domainToken &&
        wordBoundaryTest (jsLower (ot.getD []))
          (jsTrim (jsLower kw))) = false →
      (kws.any fun k => ext.isExactKeywordMatch k.text kw) = false →
      (kws.any fun k => ext.isPartialKeywordMatch k.text kw) = false →
      (kws.any fun k =>
        jsIncludes (jsTrim (jsLower k.text)) (jsTrim (jsLower kw)) ||
        jsIncludes (jsTrim (jsLower kw)) (jsTrim (jsLower k.text))) = false →
      ext.isKeywordInTopPositions kw kws 10 = false →
      (es.any fun e =>
        jsIncludes (jsLower e.text) (jsTrim (jsLower kw)) ||
        jsIncludes (jsTrim (jsLower kw)) (jsLower e.text)) = true →
      checkKeywordStatus ext kw (some ⟨ot, some kws, some es⟩) = .exact) ∧
    (∀ (ext : ExternalMatchers) (kw : List Char) (ot : Option (List Char))
        (kws : List KeywordEntry) (ent : Option (List Entity)),
      kw.isEmpty = false →
      (!(ot.getD []).isEmpty &&
        jsIncludes (jsTrim (jsLower kw)) domainToken &&
        wordBoundaryTest (jsLower (ot.getD []))
          (jsTrim (jsLower kw))) = false →
      (kws.any fun k => ext.isExactKeywordMatch k.text kw) = false →
      (kws.any fun k => ext.isPartialKeywordMatch k.text kw) = false →
      (kws.any fun k =>
        jsIncludes (jsTrim (jsLower k.text)) (jsTrim (jsLower kw)) ||
        jsIncludes (jsTrim (jsLower kw)) (jsTrim (jsLower k.text))) = true →
      checkKeywordStatus ext kw (some ⟨ot, some kws, ent⟩) = .partialMatch) := by
  constructor
  · intro ext kw ot kws es hkw h1 h2 h3 h4 h5 h6
    have hlen : 0 < es.length := by
      obtain ⟨e, he, -⟩ := List.any_eq_true.1 h6
      exact List.length_pos.2 (List.ne_nil_of_mem he)
    simp only [checkKeywordStatus, hkw, h1, h2, h3, h4, h5, h6, hlen,
      Bool.false_eq_true, if_false, decide_eq_true, Bool.and_true,
      Bool.true_and, if_true]
  · intro ext kw ot kws ent hkw h1 h2 h3 h4
    simp only [checkKeywordStatus, hkw, h1, h2, h3, h4,
      Bool.false_eq_true, if_false, if_true]

theorem ite_status_mono (b b' : Bool) (hmono : b = true → b' = true) :
    ((if b' = true then KeywordStatus.exact else KeywordStatus.missing) =
      (if b = true then KeywordStatus.exact else KeywordStatus.missing)) ∨
    ((if b = true then KeywordStatus.exact else KeywordStatus.missing) =
        KeywordStatus.missing ∧
      (if b' = true then KeywordStatus.exact else KeywordStatus.missing) =
        KeywordStatus.exact) := by
  cases b
  · cases b'
    · exact Or.inl rfl
    · exact Or.inr ⟨rfl, rfl⟩
  · rw [hmono rfl]
    exact Or.inl rfl

/-- C5 (amended): keyword-entry comparisons lower-case and trim both sides,
but the entity comparison of rule 6 lower-cases without trimming the entity
text; replacing every entity text by its trimmed form therefore either
leaves the tier unchanged or turns a `missing` verdict into `exact` (it can
do nothing else). -/
theorem entity_trim_monotone (ext : ExternalMatchers) (kw : List Char)
    (r : AnalysisResult) :
    checkKeywordStatus ext kw (some (trimEntityTexts r)) =
      checkKeywordStatus ext kw (some r) ∨
    (checkKeywordStatus ext kw (some r) = .missing ∧
      checkKeywordStatus ext kw (some (trimEntityTexts r)) = .exact) := by
  obtain ⟨ot, okw, ent⟩ := r
  cases okw with
  | none => exact Or.inl rfl
  | some kws =>
    cases hkw : kw.isEmpty with
    | true =>
      refine Or.inl ?_
      simp only [checkKeywordStatus, trimEntityTexts, hkw, if_true]
    | false =>
      simp only [checkKeywordStatus, trimEntityTexts, hkw,
        Bool.false_eq_true, if_false]
      cases hc1 : (!(ot.getD []).isEmpty &&
          jsIncludes (jsTrim (jsLower kw)) domainToken &&
          wordBoundaryTest (jsLower (ot.getD [])) (jsTrim (jsLower kw))) with
      | true => exact Or.inl rfl
      | false =>
      simp only [Bool.false_eq_true, if_false]
      cases hc2 : (kws.any fun k => ext.isExactKeywordMatch k.text kw) with
      | true => exact Or.inl rfl
      | false =>
      simp only [Bool.false_eq_true, if_false]
      cases hc3 : (kws.any fun k => ext.isPartialKeywordMatch k.text kw) with
      | true => exact Or.inl rfl
      | false =>
      simp only [Bool.false_eq_true, if_false]
      cases hc4 : (kws.any fun k =>
          jsIncludes (jsTrim (jsLower k.text)) (jsTrim (jsLower kw)) ||
          jsIncludes (jsTrim (jsLower kw)) (jsTrim (jsLower k.text))) with
      | true => exact Or.inl rfl
      | false =>
      simp only [Bool.false_eq_true, if_false]
      cases hc5 : ext.isKeywordInTopPositions kw kws 10 with
      | true => exact Or.inl rfl
      | false =>
      simp only [Bool.false_eq_true, if_false]
      cases ent with
      | none => exact Or.inl rfl
      | some es =>
        dsimp only [Option.map_some']
        refine ite_status_mono _ _ ?_
        intro horig
        rw [Bool.and_eq_true] at horig ⊢
        obtain ⟨e, he, hce⟩ := List.any_eq_true.1 horig.2
        have hlen : decide (0 < (es.map fun e =>
            { e with text := jsTrim e.text }).length) = true := by
          rw [List.length_map]
          exact horig.1
        refine ⟨hlen, ?_⟩
        rw [List.any_map]
        exact List.any_eq_true.2 ⟨e, he, entity_containment_mono kw e hce⟩

/-- C5 counterexample: the entity comparison does not trim the entity text:
for keyword "yx" against a result with an empty keyword list and one entity
whose text is " x", the tier is `missing`, yet after replacing the entity
text by its trimmed form "x" the tier becomes `exact` — so the tier is not
invariant under trimming entity texts, and not every comparison trims both
sides. -/
theorem entity_trim_changes_tier :
    checkKeywordStatus specMatchers "yx".toList
      (some ⟨none, some [], some [⟨"Type".toList, " x".toList,
        mkRat 1 2, mkRat 1 2, 1⟩]⟩) = .missing ∧
    trimEntityTexts ⟨none, some [], some [⟨"Type".toList, " x".toList,
        mkRat 1 2, mkRat 1 2, 1⟩]⟩ =
      ⟨none, some [], some [⟨"Type".toList, "x".toList,
        mkRat 1 2, mkRat 1 2, 1⟩]⟩ ∧
    checkKeywordStatus specMatchers "yx".toList
      (some ⟨none, some [], some [⟨"Type".toList, "x".toList,
        mkRat 1 2, mkRat 1 2, 1⟩]⟩) = .exact := by
  refine ⟨by decide, by decide, by decide⟩

end WatsonNLU
